import Mathlib

/-!
Verification of the chat client (nextjs-chatgpt-demo).

JS strings are modelled as lists of characters (`Str`); the JS string
operations used by the code (indexOf, substring, startsWith, trim,
slice) are modelled by the corresponding list functions.  `JSON.parse`
is modelled by the fueled recursive-descent parser `jparse` below
(JSON per RFC 8259: objects, arrays, strings with escapes, numbers
kept as their lexeme, literals; duplicate object keys resolve to the
last binding, as in JS).  Definitions follow the source files
`src/pages/index.tsx`, `src/components/Composer.tsx` and the API/chat
and message-rendering modules.
-/

abbrev Str := List Char

def braceOpen : Char := Char.ofNat 123

def braceClose : Char := Char.ofNat 125

/-- JSON whitespace characters (RFC 8259). -/
def jsonWs (c : Char) : Bool := c == ' ' || c == '\t' || c == '\n' || c == '\r'

/-- Whitespace removed by JS String.prototype.trim (common subset:
space, tab, newline, carriage return, vertical tab, form feed). -/
def trimWs (c : Char) : Bool :=
  c == ' ' || c == '\t' || c == '\n' || c == '\r' || c == Char.ofNat 11 || c == Char.ofNat 12

/-- JS String.prototype.trim. -/
def trimStr (s : Str) : Str :=
  ((s.dropWhile trimWs).reverse.dropWhile trimWs).reverse

/-- Does the second string start with the first? -/
def leadsWith : Str → Str → Bool
  | [], _ => true
  | _ :: _, [] => false
  | a :: as, b :: bs => a == b && leadsWith as bs

/-- Substring test (JS String.prototype.includes). -/
def hasSub (n : Str) : Str → Bool
  | [] => n.isEmpty
  | c :: cs => leadsWith n (c :: cs) || hasSub n cs

/-- JSON values as produced by JSON.parse.  Numbers are kept as their
source lexeme (only their zero-ness is ever observed here). -/
inductive JVal where
  | jstr : Str → JVal
  | jnum : Str → JVal
  | jbool : Bool → JVal
  | jnull : JVal
  | jarr : List JVal → JVal
  | jobj : List (Str × JVal) → JVal

def hexVal (c : Char) : Option Nat :=
  if '0' ≤ c ∧ c ≤ '9' then some (c.toNat - '0'.toNat)
  else if 'a' ≤ c ∧ c ≤ 'f' then some (c.toNat - 'a'.toNat + 10)
  else if 'A' ≤ c ∧ c ≤ 'F' then some (c.toNat - 'A'.toNat + 10)
  else none

def escChar (c : Char) : Option Char :=
  if c = '"' then some '"'
  else if c = '\\' then some '\\'
  else if c = '/' then some '/'
  else if c = 'b' then some (Char.ofNat 8)
  else if c = 'f' then some (Char.ofNat 12)
  else if c = 'n' then some '\n'
  else if c = 'r' then some '\r'
  else if c = 't' then some '\t'
  else none

/-- Body of a JSON string after the opening quote; returns the decoded
characters and the input remaining after the closing quote. -/
def parseStringBody : Nat → Str → Option (Str × Str)
  | 0, _ => none
  | _ + 1, [] => none
  | fuel + 1, c :: cs =>
    if c = '"' then some ([], cs)
    else if c = '\\' then
      match cs with
      | [] => none
      | e :: cs2 =>
        if e = 'u' then
          match cs2 with
          | h1 :: h2 :: h3 :: h4 :: rest =>
            match hexVal h1, hexVal h2, hexVal h3, hexVal h4 with
            | some a, some b, some d1, some d2 =>
              match parseStringBody fuel rest with
              | some (s, r) => some (Char.ofNat (((a * 16 + b) * 16 + d1) * 16 + d2) :: s, r)
              | none => none
            | _, _, _, _ => none
          | _ => none
        else
          match escChar e with
          | some ch =>
            match parseStringBody fuel cs2 with
            | some (s, r) => some (ch :: s, r)
            | none => none
          | none => none
    else if c.toNat < 32 then none
    else
      match parseStringBody fuel cs with
      | some (s, r) => some (c :: s, r)
      | none => none

def digitSpan (s : Str) : Str × Str := (s.takeWhile Char.isDigit, s.dropWhile Char.isDigit)

/-- JSON number grammar; returns the lexeme and the remaining input. -/
def parseNumLex (s : Str) : Option (Str × Str) :=
  let signed : Str × Str :=
    match s with
    | c :: rest => if c = '-' then (['-'], rest) else ([], s)
    | [] => ([], s)
  let sign := signed.1
  let s1 := signed.2
  match s1 with
  | [] => none
  | c :: rest =>
    if ¬ (c.isDigit = true) then none
    else
      let ipart : Str × Str := if c = '0' then (['0'], rest) else digitSpan s1
      let ip := ipart.1
      let s2 := ipart.2
      let fpart : Str × Str :=
        match s2 with
        | d :: r =>
          if d = '.' then
            let ds := (digitSpan r).1
            if ds = [] then ([], s2) else ('.' :: ds, (digitSpan r).2)
          else ([], s2)
        | [] => ([], s2)
      let fp := fpart.1
      let s3 := fpart.2
      let epart : Str × Str :=
        match s3 with
        | e :: r =>
          if e = 'e' ∨ e = 'E' then
            match r with
            | sg :: r2 =>
              if sg = '+' ∨ sg = '-' then
                let ds := (digitSpan r2).1
                if ds = [] then ([], s3) else (e :: sg :: ds, (digitSpan r2).2)
              else
                let ds := (digitSpan r).1
                if ds = [] then ([], s3) else (e :: ds, (digitSpan r).2)
            | [] => ([], s3)
          else ([], s3)
        | [] => ([], s3)
      some (sign ++ ip ++ fp ++ epart.1, epart.2)

def skipWs : Str → Str
  | [] => []
  | c :: cs => if jsonWs c then skipWs cs else c :: cs

mutual

def parseVal : Nat → Str → Option (JVal × Str)
  | 0, _ => none
  | fuel + 1, cs =>
    match skipWs cs with
    | [] => none
    | c :: rest =>
      if c = braceOpen then
        match skipWs rest with
        | c2 :: r2 =>
          if c2 = braceClose then some (.jobj [], r2)
          else
            match parseFields fuel rest with
            | some (fs, r) => some (.jobj fs, r)
            | none => none
        | [] => none
      else if c = '[' then
        match skipWs rest with
        | c2 :: r2 =>
          if c2 = ']' then some (.jarr [], r2)
          else
            match parseElems fuel rest with
            | some (es, r) => some (.jarr es, r)
            | none => none
        | [] => none
      else if c = '"' then
        match parseStringBody (rest.length + 1) rest with
        | some (s, r) => some (.jstr s, r)
        | none => none
      else if c = 't' then
        if leadsWith ['r', 'u', 'e'] rest then some (.jbool true, rest.drop 3) else none
      else if c = 'f' then
        if leadsWith ['a', 'l', 's', 'e'] rest then some (.jbool false, rest.drop 4) else none
      else if c = 'n' then
        if leadsWith ['u', 'l', 'l'] rest then some (.jnull, rest.drop 3) else none
      else if c = '-' ∨ c.isDigit then
        match parseNumLex (c :: rest) with
        | some (lex, r) => some (.jnum lex, r)
        | none => none
      else none

def parseFields : Nat → Str → Option (List (Str × JVal) × Str)
  | 0, _ => none
  | fuel + 1, cs =>
    match skipWs cs with
    | c :: rest =>
      if c = '"' then
        match parseStringBody (rest.length + 1) rest with
        | some (key, r1) =>
          match skipWs r1 with
          | c2 :: r2 =>
            if c2 = ':' then
              match parseVal fuel r2 with
              | some (v, r3) =>
                match skipWs r3 with
                | c3 :: r4 =>
                  if c3 = ',' then
                    match parseFields fuel r4 with
                    | some (fs, r) => some ((key, v) :: fs, r)
                    | none => none
                  else if c3 = braceClose then some ([(key, v)], r4)
                  else none
                | [] => none
              | none => none
            else none
          | [] => none
        | none => none
      else none
    | [] => none

def parseElems : Nat → Str → Option (List JVal × Str)
  | 0, _ => none
  | fuel + 1, cs =>
    match parseVal fuel cs with
    | some (v, r1) =>
      match skipWs r1 with
      | c :: r2 =>
        if c = ',' then
          match parseElems fuel r2 with
          | some (es, r) => some (v :: es, r)
          | none => none
        else if c = ']' then some ([v], r2)
        else none
      | [] => none
    | none => none

end

/-- JSON.parse: a whole input parses to a single value with only
whitespace left over.  The fuel is ample for any input of this size. -/
def jparse (s : Str) : Option JVal :=
  match parseVal (2 * s.length + 2) s with
  | some (v, rest) => if skipWs rest = [] then some v else none
  | none => none

/-- Last-binding lookup in an object (JS JSON.parse keeps the last
occurrence of a duplicated key). -/
def lookupLast (fs : List (Str × JVal)) (k : Str) : Option JVal :=
  match fs with
  | [] => none
  | (k2, v) :: rest =>
    match lookupLast rest k with
    | some r => some r
    | none => if k2 = k then some v else none

/-- JS property access `v.key` on a parsed JSON value; `none` stands
for `undefined`. -/
def jvalGet : JVal → Str → Option JVal
  | .jobj fs, k => lookupLast fs k
  | _, _ => none

/-- Is a JSON number lexeme a form of zero (all mantissa digits 0)? -/
def numIsZero (lex : Str) : Bool :=
  (lex.takeWhile (fun c => !(c == 'e' || c == 'E'))).all (fun c => !c.isDigit || c == '0')

/-- JS falsiness of `message.model`: `none` is `undefined`; the empty
string, zero, `false` and `null` are falsy; objects and arrays truthy. -/
def jsFalsy : Option JVal → Bool
  | none => true
  | some (.jstr s) => s.isEmpty
  | some (.jnum lex) => numIsZero lex
  | some (.jbool b) => !b
  | some .jnull => true
  | some (.jarr _) => false
  | some (.jobj _) => false

def modelKey : Str := "model".toList

/-!
Stream decoder state (src/pages/index.tsx, `getBotMessageStreaming`).

`text` and `model` are the mutable fields of the pending assistant
`UiMessage` (created with `text: ''` and `model: ''`).  `attempts` and
`events` are ghost instrumentation: `attempts` counts the JSON.parse
invocations on a located closing brace, `events` records the
successfully parsed metadata objects; neither influences `text` or
`model`.
-/

structure DecState where
  text : Str
  model : Option JVal
  attempts : Nat
  events : List JVal

def initDecState : DecState := ⟨[], some (.jstr []), 0, []⟩

/-- Index of the first closing brace (JS `text.indexOf` with a found
result; `none` models the -1 case). -/
def braceIdx : Str → Option Nat
  | [] => none
  | c :: cs => if c = braceClose then some 0 else (braceIdx cs).map (· + 1)

/-- One iteration of the read loop in `getBotMessageStreaming`: append
the decoded chunk, then, if the model is still falsy and the text
starts with a brace and contains a closing brace at a positive index,
JSON.parse the prefix up to it; on success take the object's `model`
property and drop the parsed prefix from the text. -/
def stepMsg (s : DecState) (chunk : Str) : DecState :=
  let text := s.text ++ chunk
  if jsFalsy s.model = true ∧ text.head? = some braceOpen then
    match braceIdx text with
    | some i =>
      if 0 < i then
        match jparse (text.take (i + 1)) with
        | some v => ⟨text.drop (i + 1), jvalGet v modelKey, s.attempts + 1, s.events ++ [v]⟩
        | none => ⟨text, s.model, s.attempts + 1, s.events⟩
      else ⟨text, s.model, s.attempts, s.events⟩
    | none => ⟨text, s.model, s.attempts, s.events⟩
  else ⟨text, s.model, s.attempts, s.events⟩

def runFrom (s : DecState) (chunks : List Str) : DecState := chunks.foldl stepMsg s

/-- The whole read loop on a given chunking of the response stream. -/
def runStream (chunks : List Str) : DecState := runFrom initDecState chunks

/-- The chunking-independent observables of a decoder run. -/
def obsOf (s : DecState) : Str × Option JVal × List JVal := (s.text, s.model, s.events)

/-- Result of the decoder as a function of the whole payload alone. -/
def streamSpecObs (p : Str) : Str × Option JVal × List JVal :=
  if p.head? = some braceOpen then
    match braceIdx p with
    | some i =>
      match jparse (p.take (i + 1)) with
      | some v => (p.drop (i + 1), jvalGet v modelKey, [v])
      | none => (p, some (.jstr []), [])
    | none => (p, some (.jstr []), [])
  else (p, some (.jstr []), [])

/-- A payload is well formed when, if its prefix up to the first
closing brace parses as JSON, that object's `model` property is
truthy. -/
def wellFormedB (p : Str) : Bool :=
  if p.head? = some braceOpen then
    match braceIdx p with
    | some i =>
      match jparse (p.take (i + 1)) with
      | some v => !(jsFalsy (jvalGet v modelKey))
      | none => true
    | none => true
  else true

/-- Does a string parse as a JSON object? -/
def isObjParse (s : Str) : Bool :=
  match jparse s with
  | some (.jobj _) => true
  | _ => false

/-- No prefix of the payload is a syntactically valid JSON object. -/
def noLeadingObjB (p : Str) : Bool :=
  (List.range (p.length + 1)).all (fun n => !(isObjParse (p.take n)))

/-!
Conversation update (src/pages/index.tsx, the `setMessages` callback
inside the read loop).  The pending message object is shared by
reference, so only the opaque unique identifiers matter here: the
callback looks the pending uid up and appends the message only when
it is absent.
-/

def updateConversation (l : List Nat) (uid : Nat) : List Nat :=
  match l.find? (fun m => m == uid) with
  | some _ => l
  | none => l ++ [uid]

/-- The conversation after the read loop ran over the given chunks,
starting from `l` with pending uid `uid` (one `setMessages` per chunk). -/
def conversationAfter (l : List Nat) (uid : Nat) (chunks : List Str) : List Nat :=
  chunks.foldl (fun acc _ => updateConversation acc uid) l

/-!
Relay error path (src/pages/api/chat.ts, `OpenAIStream`): on a
non-ok upstream response the stream enqueues one chunk
`OpenAI API error: ${status} ${statusText} ${JSON.stringify(errorPayload)}`
and closes; the SSE parser is never constructed.  `errorPayload` is
the JSON-parsed body, or `{}` when the body fails to parse.
-/

/-- JSON.stringify escaping for string content (the characters that
occur in payloads here). -/
def escJsonChar (c : Char) : Str :=
  if c = '"' then ['\\', '"']
  else if c = '\\' then ['\\', '\\']
  else if c = '\n' then ['\\', 'n']
  else if c = '\r' then ['\\', 'r']
  else if c = '\t' then ['\\', 't']
  else [c]

/-- JSON.stringify, fueled by nesting depth. -/
def jstringifyF : Nat → JVal → Str
  | 0, _ => []
  | _ + 1, .jstr s => '"' :: (s.map escJsonChar).flatten ++ ['"']
  | _ + 1, .jnum lex => lex
  | _ + 1, .jbool b => if b then "true".toList else "false".toList
  | _ + 1, .jnull => "null".toList
  | fuel + 1, .jarr es => '[' :: List.intercalate [','] (es.map (jstringifyF fuel)) ++ [']']
  | fuel + 1, .jobj fs =>
    braceOpen ::
      List.intercalate [',']
        (fs.map (fun kv => '"' :: (kv.1.map escJsonChar).flatten ++ '"' :: ':' :: jstringifyF fuel kv.2))
      ++ [braceClose]

/-- Chunks enqueued by `OpenAIStream` when the upstream response has a
non-ok status: a single error chunk, then the stream closes. -/
def openAIErrorChunks (status : Nat) (statusText body : Str) : List Str :=
  let errorPayload : JVal :=
    match jparse body with
    | some v => v
    | none => .jobj []
  ["OpenAI API error: ".toList ++ Nat.toDigits 10 status ++ [' '] ++ statusText ++ [' ']
     ++ jstringifyF (body.length + 1) errorPayload]

/-!
Composer (src/components/Composer.tsx) and the send pipeline
(src/pages/index.tsx, `handleComposerSendMessage`).  Local storage is
modelled by the `history` field passed in and out; `convCount` counts
conversation entries appended by sends; `inFlight` counts outstanding
streaming requests (the promise started by `getBotMessageStreaming`).
A click on the disabled send button is a no-op (the button carries
`disabled={disableSend}`), and `handleKeyPress` checks `disableSend`
itself.  A stream completion event with nothing in flight cannot
occur; it is modelled as a no-op.
-/

/-- `appendMessageToHistory`: bubble-to-top by trimmed match, newest
first, truncated to `maxMessages`. -/
def appendMessageToHistory (history : List Str) (composeText : Str) (maxMessages : Nat) : List Str :=
  let optimizedText := trimStr composeText
  let composedMessages := history.filter (fun m => !(trimStr m == optimizedText))
  (composeText :: composedMessages).take maxMessages

inductive CEvent where
  | clickSend
  | keyEnter (shift : Bool)
  | setText (t : Str)
  | streamDone
deriving DecidableEq

structure ComposerSt where
  disableCompose : Bool
  composeText : Str
  history : List Str
  convCount : Nat
  inFlight : Nat
deriving DecidableEq

def initComposer : ComposerSt := ⟨false, [], [], 0, 0⟩

/-- `handleSendClicked`: trim, and only when non-empty clear the box,
send (append user message, disable composing, start the stream) and
record the history entry. -/
def handleSendClicked (s : ComposerSt) : ComposerSt :=
  let text := trimStr s.composeText
  if text.length ≠ 0 then
    { disableCompose := true
      composeText := []
      history := appendMessageToHistory s.history text 20
      convCount := s.convCount + 1
      inFlight := s.inFlight + 1 }
  else s

def stepEvent (s : ComposerSt) : CEvent → ComposerSt
  | .clickSend => if s.disableCompose then s else handleSendClicked s
  | .keyEnter shift =>
    if shift then s
    else if s.disableCompose then s else handleSendClicked s
  | .setText t => { s with composeText := t }
  | .streamDone =>
    if s.inFlight = 0 then s
    else { s with disableCompose := false, inFlight := s.inFlight - 1 }

def runComposer (es : List CEvent) : ComposerSt := es.foldl stepEvent initComposer

/-!
Code-fence splitting (ChatMessage module,
`parseAndHighlightCodeBlocks`), an embedding of the regex loop over
the pattern "3+ backticks, optional word, newline, lazy content,
3+ backticks or end of string".  The Prism-highlighted HTML (the
`content` field of code blocks) is produced by the external
highlighter and is not modelled; segments carry the raw code and the
language, which is what the loop computes itself.
-/

def backtickChar : Char := Char.ofNat 96

def isWordChar (c : Char) : Bool := c.isAlphanum || c == '_'

/-- Length of the leading run of backticks. -/
def tickRun : Str → Nat
  | [] => 0
  | c :: cs => if c = backtickChar then tickRun cs + 1 else 0

/-- Lazy scan of fence content: stop at the first run of 3 or more
backticks (returning its length) or at the end of the string. -/
def scanContent : Str → Str × Nat
  | [] => ([], 0)
  | c :: cs =>
    if tickRun (c :: cs) ≥ 3 then ([], tickRun (c :: cs))
    else
      let rest := scanContent cs
      (c :: rest.1, rest.2)

/-- Try to match the fence pattern at the start of the string:
returns (language capture, raw content, total match length). -/
def fenceAt (u : Str) : Option (Option Str × Str × Nat) :=
  let k := tickRun u
  if k ≥ 3 then
    let afterTicks := u.drop k
    let w := afterTicks.takeWhile isWordChar
    match afterTicks.drop w.length with
    | c :: _ =>
      if c = '\n' then
        let sc := scanContent ((afterTicks.drop w.length).drop 1)
        some (if w = [] then none else some w, sc.1, k + w.length + 1 + sc.1.length + sc.2)
      else none
    | [] => none
  else none

/-- First fence match at or after the start: its offset and the match
data (regex exec scanning forward). -/
def findFence : Str → Option (Nat × Option Str × Str × Nat)
  | [] => none
  | c :: cs =>
    match fenceAt (c :: cs) with
    | some (lang, content, len) => some (0, lang, content, len)
    | none => (findFence cs).map (fun r => (r.1 + 1, r.2.1, r.2.2.1, r.2.2.2))

inductive MsgSegment where
  | textSeg (content : Str)
  | codeSeg (code : Str) (language : Str)
deriving DecidableEq

/-- The regex-exec loop: before each code block push the intervening
text (even when empty), push the code block with its trimmed content
and declared or default language, continue after the match; finally
push the trailing text when non-empty. -/
def parseLoop : Nat → Str → List MsgSegment
  | 0, _ => []
  | fuel + 1, rem =>
    match findFence rem with
    | some (i, lang, content, len) =>
      .textSeg (rem.take i)
        :: .codeSeg (trimStr content) (lang.getD ("typescript".toList))
        :: parseLoop fuel (rem.drop (i + len))
    | none => if rem.length ≠ 0 then [.textSeg rem] else []

def parseAndHighlightCodeBlocks (text : Str) : List MsgSegment :=
  parseLoop (text.length + 1) text

/-!
Lemmas about the decoder.  The central result `runFrom_obs` shows that
for well-formed payloads the observable outcome of the read loop is a
function of the concatenated payload only, independent of chunking.
-/

theorem braceIdx_append_some {l : Str} {i : Nat} (h : braceIdx l = some i) (r : Str) :
    braceIdx (l ++ r) = some i := by
  induction l generalizing i with
  | nil => simp [braceIdx] at h
  | cons c cs ih =>
    by_cases hc : c = braceClose
    · simp only [braceIdx, List.cons_append, if_pos hc] at h ⊢
      exact h
    · simp only [braceIdx, List.cons_append, List.append_eq, if_neg hc] at h ⊢
      rcases Option.map_eq_some'.mp h with ⟨j, hj, rfl⟩
      rw [ih hj]
      rfl

theorem braceIdx_lt {l : Str} {i : Nat} (h : braceIdx l = some i) : i < l.length := by
  induction l generalizing i with
  | nil => simp [braceIdx] at h
  | cons c cs ih =>
    by_cases hc : c = braceClose
    · simp only [braceIdx, if_pos hc, Option.some.injEq] at h
      subst h
      simp
    · simp only [braceIdx, if_neg hc] at h
      rcases Option.map_eq_some'.mp h with ⟨j, hj, rfl⟩
      have := ih hj
      simp only [List.length_cons]
      omega

theorem braceIdx_pos_of_head {l : Str} {i : Nat} (hh : l.head? = some braceOpen)
    (h : braceIdx l = some i) : 0 < i := by
  cases l with
  | nil => simp at hh
  | cons c cs =>
    simp only [List.head?_cons, Option.some.injEq] at hh
    subst hh
    have hc : braceOpen ≠ braceClose := by decide
    simp only [braceIdx, if_neg hc] at h
    rcases Option.map_eq_some'.mp h with ⟨j, hj, rfl⟩
    omega

theorem take_append_le {l r : Str} {n : Nat} (h : n ≤ l.length) :
    (l ++ r).take n = l.take n := by
  rw [List.take_append_eq_append_take, Nat.sub_eq_zero_of_le h]
  simp

theorem drop_append_le {l r : Str} {n : Nat} (h : n ≤ l.length) :
    (l ++ r).drop n = l.drop n ++ r := by
  rw [List.drop_append_eq_append_drop, Nat.sub_eq_zero_of_le h]
  simp

theorem head?_append_left {l r : Str} {ch : Char} (h : l.head? = some ch) :
    (l ++ r).head? = some ch := by
  rw [List.head?_append, h]
  rfl

theorem stepMsg_not_cond {s : DecState} {c : Str}
    (h : ¬(jsFalsy s.model = true ∧ (s.text ++ c).head? = some braceOpen)) :
    stepMsg s c = ⟨s.text ++ c, s.model, s.attempts, s.events⟩ := by
  simp only [stepMsg]
  rw [if_neg h]

theorem stepMsg_brace_none {s : DecState} {c : Str}
    (h : braceIdx (s.text ++ c) = none) :
    stepMsg s c = ⟨s.text ++ c, s.model, s.attempts, s.events⟩ := by
  simp only [stepMsg, h]
  split <;> rfl

theorem stepMsg_attempt_none {s : DecState} {c : Str} {i : Nat}
    (hf : jsFalsy s.model = true) (hh : (s.text ++ c).head? = some braceOpen)
    (hb : braceIdx (s.text ++ c) = some i)
    (hp : jparse ((s.text ++ c).take (i + 1)) = none) :
    stepMsg s c = ⟨s.text ++ c, s.model, s.attempts + 1, s.events⟩ := by
  have hi : 0 < i := braceIdx_pos_of_head hh hb
  simp only [stepMsg, hb, hp]
  rw [if_pos ⟨hf, hh⟩, if_pos hi]

theorem stepMsg_attempt_some {s : DecState} {c : Str} {i : Nat} {v : JVal}
    (hf : jsFalsy s.model = true) (hh : (s.text ++ c).head? = some braceOpen)
    (hb : braceIdx (s.text ++ c) = some i)
    (hp : jparse ((s.text ++ c).take (i + 1)) = some v) :
    stepMsg s c = ⟨(s.text ++ c).drop (i + 1), jvalGet v modelKey,
      s.attempts + 1, s.events ++ [v]⟩ := by
  have hi : 0 < i := braceIdx_pos_of_head hh hb
  simp only [stepMsg, hb, hp]
  rw [if_pos ⟨hf, hh⟩, if_pos hi]

theorem runFrom_truthy {s : DecState} (h : jsFalsy s.model = false) (cs : List Str) :
    runFrom s cs = ⟨s.text ++ cs.flatten, s.model, s.attempts, s.events⟩ := by
  induction cs generalizing s with
  | nil => cases s; simp [runFrom]
  | cons c cs ih =>
    simp only [runFrom, List.foldl_cons]
    rw [stepMsg_not_cond (by simp [h])]
    have := ih (s := ⟨s.text ++ c, s.model, s.attempts, s.events⟩) h
    simp only [runFrom] at this
    rw [this]
    simp

theorem runFrom_head_ne {s : DecState} {ch : Char} (hh : s.text.head? = some ch)
    (hne : ch ≠ braceOpen) (cs : List Str) :
    runFrom s cs = ⟨s.text ++ cs.flatten, s.model, s.attempts, s.events⟩ := by
  induction cs generalizing s with
  | nil => cases s; simp [runFrom]
  | cons c cs ih =>
    have hh' : (s.text ++ c).head? = some ch := head?_append_left hh
    simp only [runFrom, List.foldl_cons]
    rw [stepMsg_not_cond (by rw [hh']; rintro ⟨-, h2⟩; exact hne (by injection h2))]
    have := ih (s := ⟨s.text ++ c, s.model, s.attempts, s.events⟩) hh'
    simp only [runFrom] at this
    rw [this]
    simp

theorem runFrom_failloop {s : DecState} {i : Nat}
    (hf : jsFalsy s.model = true)
    (hh : s.text.head? = some braceOpen)
    (hb : braceIdx s.text = some i)
    (hp : jparse (s.text.take (i + 1)) = none) (cs : List Str) :
    (runFrom s cs).text = s.text ++ cs.flatten ∧ (runFrom s cs).model = s.model ∧
      (runFrom s cs).events = s.events := by
  induction cs generalizing s with
  | nil => simp [runFrom]
  | cons c cs ih =>
    have hle : i + 1 ≤ s.text.length := braceIdx_lt hb
    have hh' : (s.text ++ c).head? = some braceOpen := head?_append_left hh
    have hb' : braceIdx (s.text ++ c) = some i := braceIdx_append_some hb c
    have htake : (s.text ++ c).take (i + 1) = s.text.take (i + 1) := take_append_le hle
    have hp' : jparse ((s.text ++ c).take (i + 1)) = none := by rw [htake]; exact hp
    simp only [runFrom, List.foldl_cons]
    rw [stepMsg_attempt_none hf hh' hb' hp']
    have := ih (s := ⟨s.text ++ c, s.model, s.attempts + 1, s.events⟩) hf hh' hb' hp'
    simp only [runFrom] at this
    simpa [List.append_assoc] using this

theorem streamSpecObs_of_none {p : Str} (hb : braceIdx p = none) :
    streamSpecObs p = (p, some (.jstr []), []) := by
  simp only [streamSpecObs, hb]
  split <;> rfl

theorem streamSpecObs_of_head_ne {p : Str} {ch : Char} (hh : p.head? = some ch)
    (hne : ch ≠ braceOpen) :
    streamSpecObs p = (p, some (.jstr []), []) := by
  simp only [streamSpecObs]
  rw [if_neg (by rw [hh]; intro h2; exact hne (by injection h2))]

theorem streamSpecObs_of_parse_none {p : Str} {i : Nat}
    (hh : p.head? = some braceOpen) (hb : braceIdx p = some i)
    (hp : jparse (p.take (i + 1)) = none) :
    streamSpecObs p = (p, some (.jstr []), []) := by
  simp only [streamSpecObs, hb, hp, if_pos hh]

theorem streamSpecObs_of_parse_some {p : Str} {i : Nat} {v : JVal}
    (hh : p.head? = some braceOpen) (hb : braceIdx p = some i)
    (hp : jparse (p.take (i + 1)) = some v) :
    streamSpecObs p = (p.drop (i + 1), jvalGet v modelKey, [v]) := by
  simp only [streamSpecObs, hb, hp, if_pos hh]

theorem wellFormedB_truthy {p : Str} {i : Nat} {v : JVal}
    (hh : p.head? = some braceOpen) (hb : braceIdx p = some i)
    (hp : jparse (p.take (i + 1)) = some v) (hwf : wellFormedB p = true) :
    jsFalsy (jvalGet v modelKey) = false := by
  simp only [wellFormedB, hb, hp, if_pos hh, Bool.not_eq_true'] at hwf
  exact hwf

theorem runFrom_obs_aux (cs : List Str) (s : DecState)
    (hm : s.model = some (.jstr [])) (he : s.events = [])
    (hb : braceIdx s.text = none)
    (hwf : wellFormedB (s.text ++ cs.flatten) = true) :
    obsOf (runFrom s cs) = streamSpecObs (s.text ++ cs.flatten) := by
  induction cs generalizing s with
  | nil =>
    simp only [runFrom, List.foldl_nil, List.flatten_nil, List.append_nil]
    rw [streamSpecObs_of_none hb]
    simp [obsOf, hm, he]
  | cons c cs ih =>
    obtain ⟨st, sm, sa, se⟩ := s
    simp only [] at hm he hb hwf ⊢
    subst hm
    subst he
    have hfalsy : jsFalsy (some (JVal.jstr [])) = true := rfl
    have hπeq : st ++ (c :: cs).flatten = (st ++ c) ++ cs.flatten := by
      simp [List.flatten_cons, List.append_assoc]
    rw [hπeq] at hwf ⊢
    simp only [runFrom, List.foldl_cons]
    cases hbt : braceIdx (st ++ c) with
    | none =>
      rw [stepMsg_brace_none (s := ⟨st, some (.jstr []), sa, []⟩) hbt]
      have := ih ⟨st ++ c, some (.jstr []), sa, []⟩ rfl rfl hbt hwf
      simpa [runFrom] using this
    | some i =>
      cases hh : (st ++ c).head? with
      | none =>
        rw [List.head?_eq_none_iff.mp hh] at hbt
        simp [braceIdx] at hbt
      | some ch =>
        by_cases hch : ch = braceOpen
        · subst hch
          have hle : i + 1 ≤ (st ++ c).length := braceIdx_lt hbt
          have hhπ : ((st ++ c) ++ cs.flatten).head? = some braceOpen := head?_append_left hh
          have hbπ : braceIdx ((st ++ c) ++ cs.flatten) = some i := braceIdx_append_some hbt _
          have htake : ((st ++ c) ++ cs.flatten).take (i + 1) = (st ++ c).take (i + 1) :=
            take_append_le hle
          cases hp : jparse ((st ++ c).take (i + 1)) with
          | none =>
            rw [stepMsg_attempt_none (s := ⟨st, some (.jstr []), sa, []⟩) hfalsy hh hbt hp]
            have hrun := runFrom_failloop (s := ⟨st ++ c, some (.jstr []), sa + 1, []⟩)
              hfalsy hh hbt hp cs
            simp only [runFrom] at hrun
            obtain ⟨ht, hmo, hev⟩ := hrun
            rw [streamSpecObs_of_parse_none hhπ hbπ (by rw [htake]; exact hp)]
            simp only [obsOf, ht, hmo, hev]
          | some v =>
            rw [stepMsg_attempt_some (s := ⟨st, some (.jstr []), sa, []⟩) hfalsy hh hbt hp]
            have hpπ : jparse (((st ++ c) ++ cs.flatten).take (i + 1)) = some v := by
              rw [htake]; exact hp
            have htruthy : jsFalsy (jvalGet v modelKey) = false :=
              wellFormedB_truthy hhπ hbπ hpπ hwf
            show obsOf (List.foldl stepMsg
                ⟨(st ++ c).drop (i + 1), jvalGet v modelKey, sa + 1, [v]⟩ cs) = _
            have hrun := runFrom_truthy (s := ⟨(st ++ c).drop (i + 1), jvalGet v modelKey,
              sa + 1, [v]⟩) htruthy cs
            simp only [runFrom] at hrun
            rw [hrun, streamSpecObs_of_parse_some hhπ hbπ hpπ]
            simp only [obsOf]
            rw [drop_append_le hle]
        · rw [stepMsg_not_cond (s := ⟨st, some (.jstr []), sa, []⟩)
            (by rw [show ((⟨st, some (.jstr []), sa, []⟩ : DecState).text ++ c) = st ++ c from rfl, hh]
                rintro ⟨-, h2⟩; exact hch (by injection h2))]
          have hrun := runFrom_head_ne (s := ⟨st ++ c, some (.jstr []), sa, []⟩) hh hch cs
          simp only [runFrom] at hrun
          rw [hrun, streamSpecObs_of_head_ne (head?_append_left hh) hch]
          simp [obsOf]

/-- Chunking independence: on a well-formed payload the read loop's
text, model and metadata events depend only on the concatenation of
the chunks. -/
theorem runStream_obs {p : Str} (hwf : wellFormedB p = true) (chunks : List Str)
    (hc : chunks.flatten = p) :
    obsOf (runStream chunks) = streamSpecObs p := by
  subst hc
  have := runFrom_obs_aux chunks initDecState rfl rfl rfl (by simpa using hwf)
  simpa [runStream] using this

theorem parseVal_brace_obj (fuel : Nat) {cs : Str} {v : JVal} {r : Str}
    (h : parseVal fuel (braceOpen :: cs) = some (v, r)) : ∃ fs, v = .jobj fs := by
  cases fuel with
  | zero => simp [parseVal] at h
  | succ f =>
    have hsw : skipWs (braceOpen :: cs) = braceOpen :: cs := by
      simp only [skipWs]
      rw [if_neg (by decide)]
    simp only [parseVal, hsw, eq_self_iff_true, if_true] at h
    split at h
    · split at h
      · simp only [Option.some.injEq, Prod.mk.injEq] at h
        exact ⟨[], h.1.symm⟩
      · split at h
        · simp only [Option.some.injEq, Prod.mk.injEq] at h
          exact ⟨_, h.1.symm⟩
        · simp at h
    · simp at h

theorem jparse_brace_obj {cs : Str} {v : JVal} (h : jparse (braceOpen :: cs) = some v) :
    ∃ fs, v = .jobj fs := by
  unfold jparse at h
  split at h
  next v' r heq =>
    split at h
    · simp only [Option.some.injEq] at h
      subst h
      exact parseVal_brace_obj _ heq
    · simp at h
  next heq => simp at h

theorem noLeadingObj_facts {p : Str} (h : noLeadingObjB p = true) :
    wellFormedB p = true ∧ streamSpecObs p = (p, some (.jstr []), []) := by
  by_cases hbo : p.head? = some braceOpen
  · cases hb : braceIdx p with
    | none =>
      constructor
      · simp only [wellFormedB, hb, if_pos hbo]
      · exact streamSpecObs_of_none hb
    | some i =>
      have hlt : i < p.length := braceIdx_lt hb
      have hobj : isObjParse (p.take (i + 1)) = false := by
        have hall := List.all_eq_true.mp h (i + 1) (List.mem_range.mpr (by omega))
        cases hio : isObjParse (p.take (i + 1)) with
        | false => rfl
        | true => rw [hio] at hall; simp at hall
      have hp : jparse (p.take (i + 1)) = none := by
        cases hpj : jparse (p.take (i + 1)) with
        | none => rfl
        | some v =>
          obtain ⟨ph, pt⟩ : ∃ ph pt, p = ph :: pt := by
            cases p with
            | nil => simp at hbo
            | cons a b => exact ⟨a, b, rfl⟩
          obtain ⟨pt, rfl⟩ := pt
          have hph : ph = braceOpen := by
            simp only [List.head?_cons, Option.some.injEq] at hbo
            exact hbo
          subst hph
          have htk : (braceOpen :: pt).take (i + 1) = braceOpen :: pt.take i := rfl
          rw [htk] at hpj
          obtain ⟨fs, rfl⟩ := jparse_brace_obj hpj
          rw [htk] at hobj
          simp [isObjParse, hpj] at hobj
      constructor
      · simp only [wellFormedB, hb, hp, if_pos hbo]
      · exact streamSpecObs_of_parse_none hbo hb hp
  · constructor
    · simp only [wellFormedB]
      rw [if_neg hbo]
    · simp only [streamSpecObs]
      rw [if_neg hbo]

theorem braceIdx_no_brace_append {mid : Str} (h : braceClose ∉ mid) (r : Str) :
    braceIdx (mid ++ braceClose :: r) = some mid.length := by
  induction mid with
  | nil => simp [braceIdx]
  | cons c cs ih =>
    have hc : c ≠ braceClose := fun e => h (by rw [e]; exact List.mem_cons_self _ _)
    simp only [List.cons_append, braceIdx, List.append_eq, if_neg hc]
    rw [ih (fun hm => h (List.mem_cons_of_mem _ hm))]
    simp

/-- C1 is false as stated: the payload consisting of the valid
bracketed object followed by arbitrary trailing text, delivered in
two chunks, produces two metadata events and loses part of the
trailing text (the object here has no model field, so the model stays
falsy and the parse step repeats). -/
theorem C1_counterexample :
    isObjParse ("\x7b\x7d".toList) = true ∧
    (["\x7b\x7d".toList, "\x7b\x7dx".toList] : List Str).flatten
        = "\x7b\x7d".toList ++ "\x7b\x7dx".toList ∧
    (runStream ["\x7b\x7d".toList, "\x7b\x7dx".toList]).events.length = 2 ∧
    (runStream ["\x7b\x7d".toList, "\x7b\x7dx".toList]).text ≠ "\x7b\x7dx".toList := by
  decide

/-- C1 (amended): for every stream whose payload starts directly with
an opening brace, whose leading object contains no closing brace
before its final character, parses as JSON and carries a non-empty
string model field, and for every chunking of the payload, the decoder
produces exactly one metadata event carrying that object, sets the
pending message's model from the object's model field, and the final
text is exactly the trailing bytes. -/
theorem C1_amended_metadata_extraction (mid tail : Str) (v : JVal) (m : Str)
    (hnb : braceClose ∉ mid)
    (hp : jparse (braceOpen :: (mid ++ [braceClose])) = some v)
    (hm : jvalGet v modelKey = some (.jstr m)) (hm2 : m ≠ [])
    (chunks : List Str)
    (hc : chunks.flatten = braceOpen :: (mid ++ braceClose :: tail)) :
    obsOf (runStream chunks) = (tail, some (.jstr m), [v]) := by
  have hb : braceIdx (braceOpen :: (mid ++ braceClose :: tail)) = some (mid.length + 1) := by
    simp only [braceIdx, if_neg (show ¬ braceOpen = braceClose by decide)]
    rw [braceIdx_no_brace_append hnb tail]
    rfl
  have htk : (braceOpen :: (mid ++ braceClose :: tail)).take (mid.length + 1 + 1)
      = braceOpen :: (mid ++ [braceClose]) := by
    rw [List.take_succ_cons]
    congr 1
    have := @List.take_append Char mid (braceClose :: tail) 1
    simpa using this
  have hdrop : (braceOpen :: (mid ++ braceClose :: tail)).drop (mid.length + 1 + 1) = tail := by
    rw [List.drop_succ_cons]
    have := @List.drop_append Char mid (braceClose :: tail) 1
    simp only [List.drop_succ_cons, List.drop_zero] at this
    exact this
  have hp' : jparse ((braceOpen :: (mid ++ braceClose :: tail)).take (mid.length + 1 + 1))
      = some v := by
    rw [htk]; exact hp
  have hwfp : wellFormedB (braceOpen :: (mid ++ braceClose :: tail)) = true := by
    simp only [wellFormedB, List.head?_cons, eq_self_iff_true, if_true, hb, hp', hm, jsFalsy]
    rw [List.isEmpty_eq_false.mpr hm2]
    rfl
  have hobs := runStream_obs hwfp chunks hc
  rw [streamSpecObs_of_parse_some (by rfl) hb hp'] at hobs
  rw [hobs, hdrop, hm]

/-- C1 amended, at a concrete stream and chunking. -/
theorem C1_amended_metadata_extraction_witness :
    obsOf (runStream ["\x7b\"mod".toList, "el\":\"gpt-4\"\x7dHel".toList, "lo".toList])
      = ("Hello".toList, some (.jstr "gpt-4".toList),
          [.jobj [("model".toList, .jstr "gpt-4".toList)]]) :=
  C1_amended_metadata_extraction ("\"model\":\"gpt-4\"".toList) ("Hello".toList)
    (.jobj [("model".toList, .jstr "gpt-4".toList)]) ("gpt-4".toList)
    (by decide) rfl rfl (by decide) _ rfl

/-- C2 is false as stated: after a first parse attempt on a located
closing brace fails, the decoder attempts the parse again on the next
chunk (two attempts on this stream). -/
theorem C2_counterexample :
    ¬ ((runStream ["\x7ba\x7d".toList, "b".toList]).attempts ≤ 1) := by
  decide

/-- C2 (amended): the parse may be re-attempted while the model field
is still falsy, but once the pending message's model is truthy every
later chunk is appended verbatim: no re-parse, no prefix removal, no
further attempt, no further metadata event. -/
theorem C2_amended_no_reparse (s : DecState) (h : jsFalsy s.model = false) (cs : List Str) :
    runFrom s cs = ⟨s.text ++ cs.flatten, s.model, s.attempts, s.events⟩ :=
  runFrom_truthy h cs

/-- C2 amended, at the concrete state reached after a successful
metadata parse. -/
theorem C2_amended_no_reparse_witness :
    runFrom (runStream ["\x7b\"model\":\"m\"\x7d".toList]) ["ab".toList]
      = ⟨"ab".toList, some (.jstr ['m']), 1, [.jobj [("model".toList, .jstr ['m'])]]⟩ :=
  C2_amended_no_reparse _ (by decide) _

/-- C3 is false as stated: the same bytes in the same order, split at
different chunk boundaries, can produce different final texts. -/
theorem C3_counterexample :
    (["\x7b\x7d\x7b\x7dx".toList] : List Str).flatten
        = (["\x7b\x7d".toList, "\x7b\x7dx".toList] : List Str).flatten ∧
    (runStream ["\x7b\x7d\x7b\x7dx".toList]).text
        ≠ (runStream ["\x7b\x7d".toList, "\x7b\x7dx".toList]).text := by
  decide

/-- C3 (amended): for payloads in which a successfully parsed leading
preamble always carries a truthy model value (in particular whenever
no preamble parses at all, or the model field is a non-empty string),
any two chunkings of the same character sequence produce identical
final text and identical final model. -/
theorem C3_amended_chunking_invariance (p : Str) (hwf : wellFormedB p = true)
    (c1 c2 : List Str) (h1 : c1.flatten = p) (h2 : c2.flatten = p) :
    (runStream c1).text = (runStream c2).text ∧
      (runStream c1).model = (runStream c2).model := by
  have e1 := runStream_obs hwf c1 h1
  have e2 := runStream_obs hwf c2 h2
  have e : obsOf (runStream c1) = obsOf (runStream c2) := by rw [e1, e2]
  exact ⟨congrArg Prod.fst e, congrArg (fun t => t.2.1) e⟩

/-- C3 amended, at a concrete payload and two chunkings. -/
theorem C3_amended_chunking_invariance_witness :
    (runStream ["\x7b\"model\":\"m\"\x7dab".toList]).text
        = (runStream ["\x7b\"mo".toList, "del\":\"m\"\x7da".toList, "b".toList]).text ∧
    (runStream ["\x7b\"model\":\"m\"\x7dab".toList]).model
        = (runStream ["\x7b\"mo".toList, "del\":\"m\"\x7da".toList, "b".toList]).model :=
  C3_amended_chunking_invariance ("\x7b\"model\":\"m\"\x7dab".toList) (by decide) _ _ rfl rfl

/-- C4: when no prefix of the payload is a syntactically valid JSON
object, the decoder treats the entire payload as content: the final
text is the full stream verbatim, the model field keeps its initial
empty value, and no metadata event is produced, for every chunking. -/
theorem C4_no_leading_object (p : Str) (h : noLeadingObjB p = true)
    (chunks : List Str) (hc : chunks.flatten = p) :
    (runStream chunks).text = p ∧ (runStream chunks).model = some (.jstr []) ∧
      (runStream chunks).events = [] := by
  obtain ⟨hwf, hsp⟩ := noLeadingObj_facts h
  have hobs := runStream_obs hwf chunks hc
  rw [hsp] at hobs
  exact ⟨congrArg Prod.fst hobs, congrArg (fun t => t.2.1) hobs,
    congrArg (fun t => t.2.2) hobs⟩

/-- C4, at a concrete stream (brace-led but invalid JSON) and chunking. -/
theorem C4_no_leading_object_witness :
    (runStream ["\x7bo".toList, "ops\x7d re".toList, "st".toList]).text
        = "\x7boops\x7d rest".toList ∧
    (runStream ["\x7bo".toList, "ops\x7d re".toList, "st".toList]).model
        = some (.jstr []) ∧
    (runStream ["\x7bo".toList, "ops\x7d re".toList, "st".toList]).events = [] :=
  C4_no_leading_object ("\x7boops\x7d rest".toList) (by decide) _ rfl

/-- C5: on an upstream 503 with body containing the overloaded error,
the relay emits exactly one error chunk and closes; decoding it never
attempts a metadata parse (the text starts with 'O', not a brace),
produces no metadata event, leaves the model at its initial empty
value and makes the pending message's text the full error line, which
contains the substrings 503 and overloaded; the conversation gains
exactly one assistant entry; completing the stream re-enables send. -/
theorem C5_error_delivery :
    openAIErrorChunks 503 ("Service Unavailable".toList)
        ("\x7b\"error\":\"overloaded\"\x7d".toList)
      = ["OpenAI API error: 503 Service Unavailable \x7b\"error\":\"overloaded\"\x7d".toList] ∧
    (runStream (openAIErrorChunks 503 ("Service Unavailable".toList)
        ("\x7b\"error\":\"overloaded\"\x7d".toList))).text
      = "OpenAI API error: 503 Service Unavailable \x7b\"error\":\"overloaded\"\x7d".toList ∧
    (runStream (openAIErrorChunks 503 ("Service Unavailable".toList)
        ("\x7b\"error\":\"overloaded\"\x7d".toList))).attempts = 0 ∧
    (runStream (openAIErrorChunks 503 ("Service Unavailable".toList)
        ("\x7b\"error\":\"overloaded\"\x7d".toList))).events = [] ∧
    (runStream (openAIErrorChunks 503 ("Service Unavailable".toList)
        ("\x7b\"error\":\"overloaded\"\x7d".toList))).model = some (.jstr []) ∧
    hasSub ("503".toList)
      ("OpenAI API error: 503 Service Unavailable \x7b\"error\":\"overloaded\"\x7d".toList)
      = true ∧
    hasSub ("overloaded".toList)
      ("OpenAI API error: 503 Service Unavailable \x7b\"error\":\"overloaded\"\x7d".toList)
      = true ∧
    conversationAfter [0] 1 (openAIErrorChunks 503 ("Service Unavailable".toList)
        ("\x7b\"error\":\"overloaded\"\x7d".toList)) = [0, 1] ∧
    (runComposer [.setText ("hi".toList), .clickSend]).disableCompose = true ∧
    (runComposer [.setText ("hi".toList), .clickSend, .streamDone]).disableCompose = false :=
  ⟨rfl, rfl, rfl, rfl, rfl, rfl, rfl, rfl, rfl, rfl⟩

theorem sendGuardInv (d : Bool) (ct : Str) (hs : List Str) (cc fl : Nat)
    (h1 : fl ≤ 1) (h2 : d = decide (fl = 1)) :
    (if d = true then (⟨d, ct, hs, cc, fl⟩ : ComposerSt)
      else handleSendClicked ⟨d, ct, hs, cc, fl⟩).inFlight ≤ 1 ∧
    (if d = true then (⟨d, ct, hs, cc, fl⟩ : ComposerSt)
      else handleSendClicked ⟨d, ct, hs, cc, fl⟩).disableCompose
      = decide ((if d = true then (⟨d, ct, hs, cc, fl⟩ : ComposerSt)
          else handleSendClicked ⟨d, ct, hs, cc, fl⟩).inFlight = 1) := by
  by_cases hd : d = true
  · rw [if_pos hd]
    exact ⟨h1, h2⟩
  · have hdf : d = false := by revert hd; cases d <;> simp
    subst hdf
    have hfl : fl = 0 := by
      have hne : fl ≠ 1 := by
        intro e
        rw [e] at h2
        simp at h2
      omega
    subst hfl
    rw [if_neg hd]
    simp only [handleSendClicked]
    by_cases ht : (trimStr ct).length ≠ 0
    · rw [if_pos ht]
      exact ⟨by simp, rfl⟩
    · rw [if_neg ht]
      exact ⟨h1, h2⟩

theorem composerInvStep (d : Bool) (ct : Str) (hs : List Str) (cc fl : Nat) (e : CEvent)
    (h1 : fl ≤ 1) (h2 : d = decide (fl = 1)) :
    (stepEvent ⟨d, ct, hs, cc, fl⟩ e).inFlight ≤ 1 ∧
      (stepEvent ⟨d, ct, hs, cc, fl⟩ e).disableCompose
        = decide ((stepEvent ⟨d, ct, hs, cc, fl⟩ e).inFlight = 1) := by
  cases e with
  | clickSend =>
    simp only [stepEvent]
    exact sendGuardInv d ct hs cc fl h1 h2
  | keyEnter sh =>
    simp only [stepEvent]
    by_cases hsh : sh = true
    · rw [if_pos hsh]
      exact ⟨h1, h2⟩
    · rw [if_neg hsh]
      exact sendGuardInv d ct hs cc fl h1 h2
  | setText t => exact ⟨h1, h2⟩
  | streamDone =>
    simp only [stepEvent]
    by_cases hz : fl = 0
    · rw [if_pos hz]
      exact ⟨h1, h2⟩
    · rw [if_neg hz]
      have hfl : fl = 1 := by omega
      subst hfl
      exact ⟨by simp, rfl⟩

theorem composerInvRun (es : List CEvent) :
    (runComposer es).inFlight ≤ 1 ∧
      (runComposer es).disableCompose = decide ((runComposer es).inFlight = 1) := by
  suffices h : ∀ s : ComposerSt, s.inFlight ≤ 1 →
      s.disableCompose = decide (s.inFlight = 1) →
      (es.foldl stepEvent s).inFlight ≤ 1 ∧
        (es.foldl stepEvent s).disableCompose
          = decide ((es.foldl stepEvent s).inFlight = 1) by
    exact h initComposer (by decide) rfl
  induction es with
  | nil => exact fun s h1 h2 => ⟨h1, h2⟩
  | cons e es ih =>
    intro s h1 h2
    obtain ⟨d, ct, hs, cc, fl⟩ := s
    obtain ⟨k1, k2⟩ := composerInvStep d ct hs cc fl e h1 h2
    exact ih _ k1 k2

/-- C6: over every event trace, at most one request is in flight, the
compose-disable flag is set exactly while a request is in flight
(cleared only by stream completion), and while it is set a further
send attempt by button click or Enter key leaves the state unchanged. -/
theorem C6_single_flight (es : List CEvent) :
    (runComposer es).inFlight ≤ 1 ∧
    ((runComposer es).disableCompose = true ↔ (runComposer es).inFlight = 1) ∧
    ((runComposer es).disableCompose = true →
      stepEvent (runComposer es) .clickSend = runComposer es ∧
      ∀ sh, stepEvent (runComposer es) (.keyEnter sh) = runComposer es) := by
  obtain ⟨h1, h2⟩ := composerInvRun es
  refine ⟨h1, ?_, ?_⟩
  · rw [h2]
    simp
  · intro hd
    constructor
    · simp only [stepEvent]
      rw [if_pos hd]
    · intro sh
      cases sh with
      | false =>
        simp only [stepEvent]
        rw [if_neg (by simp), if_pos hd]
      | true =>
        simp [stepEvent]

/-- C6, after a concrete send while the stream is outstanding. -/
theorem C6_single_flight_witness :
    stepEvent (runComposer [.setText ("hi".toList), .clickSend]) .clickSend
        = runComposer [.setText ("hi".toList), .clickSend] ∧
    stepEvent (runComposer [.setText ("hi".toList), .clickSend]) (.keyEnter false)
        = runComposer [.setText ("hi".toList), .clickSend] := by
  have h := C6_single_flight [.setText ("hi".toList), .clickSend]
  have hd : (runComposer [CEvent.setText ("hi".toList), CEvent.clickSend]).disableCompose
      = true := by decide
  exact ⟨(h.2.2 hd).1, (h.2.2 hd).2 false⟩

theorem updateConversation_mem {l : List Nat} {u : Nat} (h : u ∈ l) :
    updateConversation l u = l := by
  unfold updateConversation
  cases hf : l.find? (fun m => m == u) with
  | some x => rfl
  | none =>
    exfalso
    have := List.find?_eq_none.mp hf u h
    simp at this

theorem updateConversation_not_mem {l : List Nat} {u : Nat} (h : u ∉ l) :
    updateConversation l u = l ++ [u] := by
  unfold updateConversation
  cases hf : l.find? (fun m => m == u) with
  | some x =>
    exfalso
    have hx := List.find?_some hf
    have hmem := List.mem_of_find?_eq_some hf
    simp only [beq_iff_eq] at hx
    subst hx
    exact h hmem
  | none => rfl

theorem conversationAfter_mem {l : List Nat} {u : Nat} (h : u ∈ l) (chunks : List Str) :
    conversationAfter l u chunks = l := by
  induction chunks with
  | nil => rfl
  | cons c cs ih =>
    simp only [conversationAfter, List.foldl_cons]
    rw [updateConversation_mem h]
    exact ih

/-- C7: if the conversation holds the pending uid at most once, then
after any number of decoded increments (each of which looks the uid up
and appends the pending message only when absent) it still holds it at
most once, and the conversation grew by at most the one pending entry. -/
theorem C7_unique_pending (l : List Nat) (u : Nat) (chunks : List Str)
    (h : l.count u ≤ 1) :
    (conversationAfter l u chunks).count u ≤ 1 ∧
      (conversationAfter l u chunks).length ≤ l.length + 1 := by
  by_cases hm : u ∈ l
  · rw [conversationAfter_mem hm]
    exact ⟨h, by omega⟩
  · cases chunks with
    | nil => exact ⟨h, by simp [conversationAfter]⟩
    | cons c cs =>
      have h1 : conversationAfter l u (c :: cs) = l ++ [u] := by
        simp only [conversationAfter, List.foldl_cons]
        rw [updateConversation_not_mem hm]
        exact conversationAfter_mem (by simp) cs
      rw [h1]
      constructor
      · rw [List.count_append, List.count_eq_zero.mpr hm]
        simp
      · simp

/-- C7, at a concrete conversation, pending uid and chunk sequence. -/
theorem C7_unique_pending_witness :
    (conversationAfter [5] 7 ["a".toList, "b".toList]).count 7 ≤ 1 ∧
      (conversationAfter [5] 7 ["a".toList, "b".toList]).length ≤ 2 :=
  C7_unique_pending [5] 7 ["a".toList, "b".toList] (by decide)

/-- The history invariant maintained by the composer: entries have
pairwise distinct trimmed forms. -/
def pairwiseTrimDistinct : List Str → Bool
  | [] => true
  | x :: xs => xs.all (fun y => !(trimStr x == trimStr y)) && pairwiseTrimDistinct xs

theorem filter_length_of_match {h : List Str} {T : Str}
    (hpw : pairwiseTrimDistinct h = true)
    (hex : h.any (fun e => trimStr e == trimStr T) = true) :
    (h.filter (fun m => !(trimStr m == trimStr T))).length + 1 = h.length := by
  induction h with
  | nil => simp at hex
  | cons x xs ih =>
    simp only [pairwiseTrimDistinct, Bool.and_eq_true, List.all_eq_true] at hpw
    obtain ⟨hall, hpw2⟩ := hpw
    cases hx : (trimStr x == trimStr T) with
    | true =>
      have hxT : trimStr x = trimStr T := eq_of_beq hx
      have hnone : ∀ y ∈ xs, (!(trimStr y == trimStr T)) = true := by
        intro y hy
        have hxy := hall y hy
        rw [Bool.not_eq_true'] at hxy
        rw [Bool.not_eq_true']
        cases hyT : (trimStr y == trimStr T) with
        | false => rfl
        | true =>
          exfalso
          have h1 := eq_of_beq hyT
          have h2 : (trimStr x == trimStr y) = true := beq_of_eq (hxT.trans h1.symm)
          rw [h2] at hxy
          exact absurd hxy (by simp)
      rw [List.filter_cons, hx]
      rw [if_neg (by simp)]
      rw [List.filter_eq_self.mpr hnone]
      rfl
    | false =>
      have hex2 : xs.any (fun e => trimStr e == trimStr T) = true := by
        simp only [List.any_cons, Bool.or_eq_true] at hex
        rcases hex with hc | hc
        · rw [hx] at hc
          exact absurd hc (by simp)
        · exact hc
      rw [List.filter_cons, hx]
      rw [if_pos (show (!false) = true from rfl)]
      have hih := ih hpw2 hex2
      simp only [List.length_cons]
      omega

/-- C8: for history lists satisfying the data-model invariant (at most
20 entries, pairwise distinct trimmed forms): appending T when a
trimmed-equal entry exists yields a list of unchanged length with T at
index 0; appending to a full 20-entry list with no trimmed match keeps
T plus the 19 most recent entries, dropping the oldest; the stored
list never exceeds 20 entries. -/
theorem C8_history_policy (h : List Str) (T : Str)
    (hlen : h.length ≤ 20) (hpw : pairwiseTrimDistinct h = true) :
    ((h.any (fun e => trimStr e == trimStr T) = true) →
        (appendMessageToHistory h T 20).length = h.length ∧
        (appendMessageToHistory h T 20).head? = some T) ∧
    ((h.all (fun e => !(trimStr e == trimStr T)) = true) → h.length = 20 →
        appendMessageToHistory h T 20 = T :: h.take 19) ∧
    (appendMessageToHistory h T 20).length ≤ 20 := by
  refine ⟨?_, ?_, ?_⟩
  · intro hex
    have hfl := filter_length_of_match hpw hex
    constructor
    · simp only [appendMessageToHistory, List.length_take, List.length_cons]
      omega
    · simp only [appendMessageToHistory]
      rw [show (20 : Nat) = 19 + 1 from rfl, List.take_succ_cons]
      rfl
  · intro hall h20
    simp only [appendMessageToHistory]
    rw [List.filter_eq_self.mpr (List.all_eq_true.mp hall)]
    rw [show (20 : Nat) = 19 + 1 from rfl, List.take_succ_cons]
  · simp only [appendMessageToHistory, List.length_take]
    omega

/-- C8, at a concrete history and resent text. -/
theorem C8_history_policy_witness :
    (appendMessageToHistory ["x ".toList, "y".toList] ("x".toList) 20).length = 2 ∧
    (appendMessageToHistory ["x ".toList, "y".toList] ("x".toList) 20).head?
      = some ("x".toList) :=
  (C8_history_policy ["x ".toList, "y".toList] ("x".toList) (by decide) (by decide)).1
    (by decide)

/-- C9: the code-fence splitter on the specified mixed input yields
exactly the three segments of the claim, and a fence with no language
tag defaults to typescript. -/
theorem C9_code_fence :
    parseAndHighlightCodeBlocks ("a\n```js\nconsole.log(1)\n```\nb".toList)
      = [.textSeg ("a\n".toList),
         .codeSeg ("console.log(1)".toList) ("js".toList),
         .textSeg ("\nb".toList)] ∧
    parseAndHighlightCodeBlocks ("```\ncode\n```".toList)
      = [.textSeg [], .codeSeg ("code".toList) ("typescript".toList)] := by
  exact ⟨by decide, by decide⟩

/-- C10: when the trimmed compose text is empty, a send attempt by
button click or Enter key leaves the whole composer state unchanged:
no conversation append, no request, no history write, and the compose
box is not cleared. -/
theorem C10_empty_send_noop (s : ComposerSt) (h : trimStr s.composeText = []) :
    stepEvent s .clickSend = s ∧ ∀ sh, stepEvent s (.keyEnter sh) = s := by
  have hsend : handleSendClicked s = s := by
    simp only [handleSendClicked, h]
    rfl
  constructor
  · simp only [stepEvent]
    by_cases hd : s.disableCompose = true
    · rw [if_pos hd]
    · rw [if_neg hd]
      exact hsend
  · intro sh
    cases sh with
    | false =>
      simp only [stepEvent]
      rw [if_neg (by simp)]
      by_cases hd : s.disableCompose = true
      · rw [if_pos hd]
      · rw [if_neg hd]
        exact hsend
    | true =>
      simp [stepEvent]

/-- C10, at a concrete whitespace-only compose box. -/
theorem C10_empty_send_noop_witness :
    stepEvent ⟨false, "  ".toList, ["z".toList], 3, 0⟩ .clickSend
        = ⟨false, "  ".toList, ["z".toList], 3, 0⟩ ∧
    ∀ sh, stepEvent ⟨false, "  ".toList, ["z".toList], 3, 0⟩ (.keyEnter sh)
        = ⟨false, "  ".toList, ["z".toList], 3, 0⟩ :=
  C10_empty_send_noop ⟨false, "  ".toList, ["z".toList], 3, 0⟩ (by decide)
